import Mathlib

/-!
Verification development for the uzleo json library: a JSON parser,
value model, accessor API and serializer.  The repository ships the
library's end-to-end tests and an example client; the library module
itself (`uzleo.json`: `Parse`, `Value`, the accessors and `Dump`) is not
part of the sources at hand, so every definition below is modelled from
the specification's description of those components.  File reading is a
collaborator that is out of scope, so `Parse` here takes the file's text
(a list of characters) directly.
-/

namespace UzleoJson

/-- Modelled from the spec: the two error kinds of the library, raised as
Malformed-Document by the lexer/parser and Type-Mismatch by accessors. -/
inductive JsonError where
  | malformedDocument : JsonError
  | typeMismatch : JsonError
deriving DecidableEq

/-- Modelled from the spec: `Value` is a tagged variant over exactly six
kinds: Null, Bool, Number (double-backed, modelled as the exact rational
value of the decimal literal), String (owned decoded text), Array
(ordered sequence) and Object (ordered key-value mapping). -/
inductive Value where
  | null : Value
  | bool : Bool → Value
  | number : ℚ → Value
  | str : List Char → Value
  | arr : List Value → Value
  | obj : List (List Char × Value) → Value

instance : Inhabited Value := ⟨.null⟩

instance : Nonempty Value := ⟨.null⟩

/-- The six kinds of a `Value`, used to state the accessor contracts. -/
inductive Kind where
  | null | bool | number | string | array | object
deriving DecidableEq

/-- The kind tag of a `Value`. -/
def Value.kind : Value → Kind
  | .null => .null
  | .bool _ => .bool
  | .number _ => .number
  | .str _ => .string
  | .arr _ => .array
  | .obj _ => .object

/-- Modelled from the spec: `GetMap` — valid only on `Object`; returns the
ordered key-value mapping, Type-Mismatch otherwise. -/
def GetMap : Value → Except JsonError (List (List Char × Value))
  | .obj ms => .ok ms
  | _ => .error .typeMismatch

/-- Modelled from the spec: `GetArray` — valid only on `Array`. -/
def GetArray : Value → Except JsonError (List Value)
  | .arr es => .ok es
  | _ => .error .typeMismatch

/-- Modelled from the spec: `GetDouble` — valid only on `Number`. -/
def GetDouble : Value → Except JsonError ℚ
  | .number q => .ok q
  | _ => .error .typeMismatch

/-- Modelled from the spec: `GetStringView` — valid only on `String`;
returns a read-only view of the decoded text. -/
def GetStringView : Value → Except JsonError (List Char)
  | .str s => .ok s
  | _ => .error .typeMismatch

/-- Modelled from the spec: `GetBool` — valid only on `Bool`. -/
def GetBool : Value → Except JsonError Bool
  | .bool b => .ok b
  | _ => .error .typeMismatch

/-- Modelled from the spec: `Contains(key)` — valid only on `Object`;
returns whether the key is present, and is a Type-Mismatch failure on
every other kind (it never silently returns false). -/
def Contains : Value → List Char → Except JsonError Bool
  | .obj ms, key => .ok (ms.any (fun kv => kv.1 == key))
  | _, _ => .error .typeMismatch

/-! ## Lexer -/

/-- Modelled from the spec: insignificant whitespace is space, tab, CR, LF. -/
def isWs (c : Char) : Bool := c = ' ' || c = '\t' || c = '\r' || c = '\n'

/-- Modelled from the spec: the single-character string escapes
`\"`, `\\`, `\/`, `\b`, `\f`, `\n`, `\r`, `\t`. -/
def escChar (c : Char) : Option Char :=
  if c = '"' then some '"'
  else if c = '\\' then some '\\'
  else if c = '/' then some '/'
  else if c = 'b' then some (Char.ofNat 8)
  else if c = 'f' then some (Char.ofNat 12)
  else if c = 'n' then some '\n'
  else if c = 'r' then some '\r'
  else if c = 't' then some '\t'
  else none

/-- Value of one hexadecimal digit, for `\uXXXX` escapes. -/
def hexVal (c : Char) : Option ℕ :=
  if c.isDigit then some (c.toNat - 48)
  else if 'a' ≤ c ∧ c ≤ 'f' then some (c.toNat - 87)
  else if 'A' ≤ c ∧ c ≤ 'F' then some (c.toNat - 55)
  else none

/-- Modelled from the spec: string tokenization after the opening quote.
Returns the decoded content and the input remaining after the closing
quote; fails on an unterminated string or an unrecognized escape. -/
def lexString : List Char → Option (List Char × List Char)
  | [] => none
  | c :: rest =>
    if c = '"' then some ([], rest)
    else if c = '\\' then
      match rest with
      | 'u' :: a :: b :: x :: d :: rest' =>
        match hexVal a, hexVal b, hexVal x, hexVal d with
        | some ha, some hb, some hx, some hd =>
          (lexString rest').map
            (fun p => (Char.ofNat (((ha * 16 + hb) * 16 + hx) * 16 + hd) :: p.1, p.2))
        | _, _, _, _ => none
      | e :: rest' =>
        match escChar e with
        | some d => (lexString rest').map (fun p => (d :: p.1, p.2))
        | none => none
      | [] => none
    else (lexString rest).map (fun p => (c :: p.1, p.2))

/-- Numeric value of a decimal digit character. -/
def digitVal (c : Char) : ℕ := c.toNat - 48

/-- Accumulate a big-endian list of decimal digit characters into a number. -/
def charsToNat (ds : List Char) : ℕ := ds.foldl (fun a c => 10 * a + digitVal c) 0

/-- The optional fractional part: a decimal point followed by one or
more digits, or nothing. -/
def lexFrac (cs : List Char) : Option (List Char × List Char) :=
  if cs.head? = some '.' then
    let sp2 := cs.tail.span (fun x => x.isDigit)
    if sp2.1 = [] then none else some sp2
  else some ([], cs)

/-- The optional exponent part: an exponent marker, an optional sign and
one or more digits, or nothing. -/
def lexExp (cs : List Char) : Option (ℤ × List Char) :=
  if cs.head? = some 'e' ∨ cs.head? = some 'E' then
    let r := cs.tail
    let esgn : ℤ := if r.head? = some '-' then -1 else 1
    let r₁ := if r.head? = some '-' ∨ r.head? = some '+' then r.tail else r
    let sp3 := r₁.span (fun x => x.isDigit)
    if sp3.1 = [] then none else some (esgn * charsToNat sp3.1, sp3.2)
  else some (0, cs)

/-- The integer part of a number literal: one or more digits, either a
single 0 or with no leading zero. -/
def lexIntPart (cs : List Char) : Option (List Char × List Char) :=
  let sp := cs.span (fun x => x.isDigit)
  if sp.1 = [] then none
  else if 1 < sp.1.length ∧ sp.1.head? = some '0' then none
  else some sp

/-- Modelled from the spec: number tokenization following the JSON numeric
grammar — optional leading minus, integer part (a single 0 or a non-zero
digit followed by digits), optional fractional part, optional exponent.
Returns the exact rational value and the remaining input. -/
def lexNumber (cs : List Char) : Option (ℚ × List Char) :=
  let neg : Bool := cs.head? = some '-'
  match lexIntPart (if neg then cs.tail else cs) with
  | none => none
  | some (ids, cs₂) =>
    match lexFrac cs₂ with
    | none => none
    | some (fds, cs₃) =>
      match lexExp cs₃ with
      | none => none
      | some (e, cs₄) =>
        let mant : ℤ := ((charsToNat ids) * 10 ^ fds.length + charsToNat fds : ℕ)
        let mant : ℤ := if neg then -mant else mant
        let q : ℚ :=
          if 0 ≤ e then Rat.divInt (mant * 10 ^ e.toNat) (10 ^ fds.length)
          else Rat.divInt mant (10 ^ (fds.length + e.natAbs))
        some (q, cs₄)

/-- Modelled from the spec: the token classes produced by the lexer —
the six punctuation marks, string literals (already decoded), number
literals, and the three fixed keywords. -/
inductive Token where
  | lbrace | rbrace | lbracket | rbracket | colon | comma
  | str : List Char → Token
  | num : ℚ → Token
  | kwTrue | kwFalse | kwNull
deriving DecidableEq

/-- Outcome of one lexer step at a non-empty input: skip a whitespace
character, produce one token, or fail. -/
inductive StepRes where
  | ws : List Char → StepRes
  | tok : Token → List Char → StepRes
  | fail : StepRes

/-- One lexer step on input `c :: cs`: classify the character, consume a
whole token (string, number, keyword or punctuation) or one whitespace
character, and return the remaining input. -/
def lexStep (c : Char) (cs : List Char) : StepRes :=
  if isWs c then .ws cs
  else if c = '{' then .tok .lbrace cs
  else if c = '}' then .tok .rbrace cs
  else if c = '[' then .tok .lbracket cs
  else if c = ']' then .tok .rbracket cs
  else if c = ':' then .tok .colon cs
  else if c = ',' then .tok .comma cs
  else if c = '"' then
    match lexString cs with
    | some (s, rest) => .tok (.str s) rest
    | none => .fail
  else if c.isDigit || c = '-' then
    match lexNumber (c :: cs) with
    | some (q, rest) => .tok (.num q) rest
    | none => .fail
  else if c.isAlpha then
    let sp := (c :: cs).span (fun x => x.isAlpha)
    if sp.1 = "true".toList then .tok .kwTrue sp.2
    else if sp.1 = "false".toList then .tok .kwFalse sp.2
    else if sp.1 = "null".toList then .tok .kwNull sp.2
    else .fail
  else .fail

/-- Modelled from the spec: the lexer turns raw text into the token
sequence, skipping insignificant whitespace; any near-miss keyword,
unterminated string, malformed number or unrecognized character is a
lexical failure.  `fuel` bounds the recursion; one unit is spent per
whitespace character or token, so `length + 1` always suffices. -/
def lexAux : ℕ → List Char → Except JsonError (List Token)
  | _, [] => .ok []
  | 0, _ :: _ => .error .malformedDocument
  | f + 1, c :: cs =>
    match lexStep c cs with
    | .ws rest => lexAux f rest
    | .tok t rest => (lexAux f rest).map (fun ts => t :: ts)
    | .fail => .error .malformedDocument

/-- Tokenize a whole document. -/
def lexAll (cs : List Char) : Except JsonError (List Token) := lexAux (cs.length + 1) cs

/-! ## Parser -/

/-- Modelled from the spec: the recursive-descent parser, as a fuelled
triple of mutually recursive entry points — parse one value, parse the
members of a non-empty array up to and including `]`, and parse the
members of a non-empty object up to and including `}`.  Each component
at fuel `f + 1` calls the components at fuel `f`; since every call
consumes at least one token, `length + 1` fuel always suffices. -/
def parseF : ℕ →
    (List Token → Except JsonError (Value × List Token)) ×
    (List Token → Except JsonError (List Value × List Token)) ×
    (List Token → Except JsonError (List (List Char × Value) × List Token))
  | 0 =>
    (fun _ => .error .malformedDocument,
     fun _ => .error .malformedDocument,
     fun _ => .error .malformedDocument)
  | f + 1 =>
    let P := parseF f
    ( fun ts =>
        match ts with
        | .kwNull :: r => .ok (.null, r)
        | .kwTrue :: r => .ok (.bool true, r)
        | .kwFalse :: r => .ok (.bool false, r)
        | .num q :: r => .ok (.number q, r)
        | .str s :: r => .ok (.str s, r)
        | .lbracket :: r =>
          if r.head? = some .rbracket then .ok (.arr [], r.tail)
          else (P.2.1 r).map (fun p => (.arr p.1, p.2))
        | .lbrace :: r =>
          if r.head? = some .rbrace then .ok (.obj [], r.tail)
          else (P.2.2 r).map (fun p => (.obj p.1, p.2))
        | _ => .error .malformedDocument,
      fun ts =>
        match P.1 ts with
        | .error e => .error e
        | .ok (v, r) =>
          match r with
          | .comma :: r' => (P.2.1 r').map (fun p => (v :: p.1, p.2))
          | .rbracket :: r' => .ok ([v], r')
          | _ => .error .malformedDocument,
      fun ts =>
        match ts with
        | .str k :: .colon :: r =>
          (match P.1 r with
           | .error e => .error e
           | .ok (v, r₁) =>
             match r₁ with
             | .comma :: r₂ => (P.2.2 r₂).map (fun p => ((k, v) :: p.1, p.2))
             | .rbrace :: r₂ => .ok ([(k, v)], r₂)
             | _ => .error .malformedDocument)
        | _ => .error .malformedDocument )

/-- Parse a token sequence as one document: a single root value with no
trailing tokens. -/
def parseTokens (ts : List Token) : Except JsonError Value :=
  match (parseF (ts.length + 1)).1 ts with
  | .ok (v, []) => .ok v
  | .ok (_, _ :: _) => .error .malformedDocument
  | .error e => .error e

/-- Modelled from the spec: `Parse` — the sole factory for a `Value`.
File reading is delegated to an out-of-scope collaborator, so the model
takes the document text directly; the text is tokenized and parsed in
one pass, and any violation aborts the whole parse with
Malformed-Document. -/
def Parse (cs : List Char) : Except JsonError Value :=
  match lexAll cs with
  | .ok ts => parseTokens ts
  | .error e => .error e

/-! ## Serializer -/

/-- Decimal digit character of a digit value. -/
def digitChar (d : ℕ) : Char := Char.ofNat (48 + d)

/-- Exactly `k` decimal digits of `n`, little-endian (`n`'s value modulo
`10 ^ k`). -/
def digitsPad : ℕ → ℕ → List ℕ
  | 0, _ => []
  | k + 1, n => n % 10 :: digitsPad k (n / 10)

/-- Exactly `k` decimal digit characters of `n`, most significant first. -/
def padChars (k n : ℕ) : List Char := ((digitsPad k n).reverse).map digitChar

/-- Fuelled decimal length: number of digits of `n` (0 for 0). -/
def numLenAux : ℕ → ℕ → ℕ
  | _, 0 => 0
  | 0, _ + 1 => 0
  | f + 1, n + 1 => 1 + numLenAux f ((n + 1) / 10)

/-- Number of decimal digits of `n` (0 for 0); `n` itself is always
enough fuel. -/
def numLen (n : ℕ) : ℕ := numLenAux n n

/-- Decimal digit characters of `n`, most significant first, no leading
zeros, with 0 rendered as a single 0 digit. -/
def natToChars (n : ℕ) : List Char := if n = 0 then ['0'] else padChars (numLen n) n

/-- A decimal shift for `q`: some `k` with `q.den ∣ 10 ^ k` whenever one
exists (the smallest one in that case, for a natural rendering). -/
def decShift (q : ℚ) : ℕ :=
  (((List.range (q.den + 1)).find? (fun k => 10 ^ k % q.den == 0)).getD q.den)

/-- Modelled from the spec: decimal rendering of a number value.  The
serializer prints the exact terminating decimal expansion: optional
minus, integer digits, and a fractional part when the decimal shift is
positive. -/
def dumpNumber (q : ℚ) : List Char :=
  let k := decShift q
  let n := q.num.natAbs * 10 ^ k / q.den
  (if q.num < 0 then ['-'] else []) ++ natToChars (n / 10 ^ k) ++
    (if k = 0 then [] else '.' :: padChars k (n % 10 ^ k))

/-- Modelled from the spec: strings are re-escaped on output — quote,
backslash and the standard single-character escapes. -/
def escapeChar (c : Char) : List Char :=
  if c = '"' then ['\\', '"']
  else if c = '\\' then ['\\', '\\']
  else if c = '\n' then ['\\', 'n']
  else if c = '\t' then ['\\', 't']
  else if c = '\r' then ['\\', 'r']
  else if c = Char.ofNat 8 then ['\\', 'b']
  else if c = Char.ofNat 12 then ['\\', 'f']
  else [c]

/-- Re-escape a whole decoded string. -/
def escapeString (s : List Char) : List Char := (s.map escapeChar).flatten

/-- The canonical text of one token. -/
def tokText : Token → List Char
  | .lbrace => ['{']
  | .rbrace => ['}']
  | .lbracket => ['[']
  | .rbracket => [']']
  | .colon => [':']
  | .comma => [',']
  | .str s => '"' :: escapeString s ++ ['"']
  | .num q => dumpNumber q
  | .kwTrue => "true".toList
  | .kwFalse => "false".toList
  | .kwNull => "null".toList

mutual

/-- The token sequence of a value: the serializer's output, one token at
a time. -/
def toks : Value → List Token
  | .null => [.kwNull]
  | .bool true => [.kwTrue]
  | .bool false => [.kwFalse]
  | .number q => [.num q]
  | .str s => [.str s]
  | .arr es => .lbracket :: toksElems es ++ [.rbracket]
  | .obj ms => .lbrace :: toksMembers ms ++ [.rbrace]

/-- Comma-separated token sequences of array elements. -/
def toksElems : List Value → List Token
  | [] => []
  | [e] => toks e
  | e :: es => toks e ++ .comma :: toksElems es

/-- Comma-separated token sequences of object members. -/
def toksMembers : List (List Char × Value) → List Token
  | [] => []
  | [(k, v)] => .str k :: .colon :: toks v
  | (k, v) :: ms => .str k :: .colon :: toks v ++ .comma :: toksMembers ms

end

/-- Interleave whitespace gaps around a token sequence: the text
`g 0 ++ text t₁ ++ g 1 ++ … ++ text tₙ ++ g n`. -/
def render : List Token → (ℕ → List Char) → List Char
  | [], g => g 0
  | t :: ts, g => g 0 ++ tokText t ++ render ts (fun i => g (i + 1))

/-- Modelled from the spec: `Dump` converts a `Value` tree back into JSON
text — here with no interleaved whitespace. -/
def Dump (v : Value) : List Char := render (toks v) (fun _ => [])

/-! ## Validity, logical equality and token separation -/

/-- A number value with a terminating decimal expansion: its reduced
denominator divides a power of ten (`10 ^ den` always works when any
power does, stated via the remainder so it is directly computable). -/
def ValidNumber (q : ℚ) : Prop := 10 ^ q.den % q.den = 0

instance : DecidablePred ValidNumber :=
  fun q => inferInstanceAs (Decidable (10 ^ q.den % q.den = 0))

/-- A token the serializer can render and the lexer re-read: only number
tokens are constrained. -/
def TokOk : Token → Prop
  | .num q => ValidNumber q
  | _ => True

instance : DecidablePred TokOk := fun t =>
  match t with
  | .num q => inferInstanceAs (Decidable (ValidNumber q))
  | .lbrace | .rbrace | .lbracket | .rbracket | .colon | .comma
  | .str _ | .kwTrue | .kwFalse | .kwNull => .isTrue trivial

/-- A valid tree: every number literal in its serialized form has a
terminating decimal expansion. -/
def Valid (v : Value) : Prop := ∀ t ∈ toks v, TokOk t

/-- Modelled from the spec: logical equality of trees — same kinds, same
scalar values, and the same ordered children. -/
inductive LogEq : Value → Value → Prop where
  | null : LogEq .null .null
  | bool : ∀ b, LogEq (.bool b) (.bool b)
  | number : ∀ q, LogEq (.number q) (.number q)
  | str : ∀ s, LogEq (.str s) (.str s)
  | arrNil : LogEq (.arr []) (.arr [])
  | arrCons : ∀ {a b : Value} {as bs : List Value}, LogEq a b →
      LogEq (.arr as) (.arr bs) → LogEq (.arr (a :: as)) (.arr (b :: bs))
  | objNil : LogEq (.obj []) (.obj [])
  | objCons : ∀ (k : List Char) {v w : Value} {ms ns : List (List Char × Value)},
      LogEq v w → LogEq (.obj ms) (.obj ns) →
      LogEq (.obj ((k, v) :: ms)) (.obj ((k, w) :: ns))

/-- The first character of a token's text. -/
def headChar (t : Token) : Char := (tokText t).headD ' '

/-- Whether the character `c`, placed directly after token `t`, could be
absorbed into `t` by the lexer (keywords absorb letters, numbers absorb
digits, a decimal point and an exponent marker). -/
def stickyAfter : Token → Char → Bool
  | .kwTrue, c => c.isAlpha
  | .kwFalse, c => c.isAlpha
  | .kwNull, c => c.isAlpha
  | .num _, c => c.isDigit || c = '.' || c = 'e' || c = 'E'
  | _, _ => false

/-- Adjacent tokens that do not need separating whitespace. -/
def SepR (a b : Token) : Prop := stickyAfter a (headChar b) = false

/-- A token sequence whose adjacent tokens never need separating
whitespace: its rendering lexes back to itself for any whitespace gaps,
including none. -/
def Sep (ts : List Token) : Prop := List.Chain' SepR ts

/-! ## The double-backed number representation (for the large-integer
precision claim) -/

/-- Fuelled base-2 logarithm (floor), total and fully computable. -/
def log2Aux : ℕ → ℕ → ℕ
  | 0, _ => 0
  | f + 1, n => if 2 ≤ n then 1 + log2Aux f (n / 2) else 0

/-- Floor of the base-2 logarithm; `n` itself is always enough fuel. -/
def log2N (n : ℕ) : ℕ := log2Aux n n

/-- Modelled from the spec: the Number kind is backed by a double-precision
(binary64) float.  This is the rounding of a natural number to the
nearest binary64 value (ties to even), exact below `2 ^ 53`. -/
def roundToBinary64 (n : ℕ) : ℕ :=
  if n < 2 ^ 53 then n
  else
    let e := log2N n - 52
    let q := n / 2 ^ e
    let r := n % 2 ^ e
    if 2 * r < 2 ^ e then q * 2 ^ e
    else if 2 ^ e < 2 * r then (q + 1) * 2 ^ e
    else if q % 2 = 0 then q * 2 ^ e else (q + 1) * 2 ^ e

/-- A natural number exactly representable as a binary64 float: a
significand below `2 ^ 53` times a power of two. -/
def RepresentableB64 (n : ℕ) : Prop := ∃ m e : ℕ, m < 2 ^ 53 ∧ n = m * 2 ^ e

/-! ## Accessor claims -/

/-- C3: each of the five accessors succeeds exactly on the single
matching kind and fails with Type-Mismatch — an error distinct from the
parse-time Malformed-Document — on every other kind. -/
theorem accessors_succeed_iff_kind_matches (v : Value) :
    ((∃ x, GetMap v = .ok x) ↔ v.kind = .object) ∧
    (GetMap v = .error .typeMismatch ↔ v.kind ≠ .object) ∧
    ((∃ x, GetArray v = .ok x) ↔ v.kind = .array) ∧
    (GetArray v = .error .typeMismatch ↔ v.kind ≠ .array) ∧
    ((∃ x, GetDouble v = .ok x) ↔ v.kind = .number) ∧
    (GetDouble v = .error .typeMismatch ↔ v.kind ≠ .number) ∧
    ((∃ x, GetStringView v = .ok x) ↔ v.kind = .string) ∧
    (GetStringView v = .error .typeMismatch ↔ v.kind ≠ .string) ∧
    ((∃ x, GetBool v = .ok x) ↔ v.kind = .bool) ∧
    (GetBool v = .error .typeMismatch ↔ v.kind ≠ .bool) ∧
    JsonError.typeMismatch ≠ JsonError.malformedDocument := by
  cases v <;>
    simp [GetMap, GetArray, GetDouble, GetStringView, GetBool, Value.kind]

/-- Membership in an object's key list matches the boolean key search
used by `Contains`. -/
theorem contains_any_iff (ms : List (List Char × Value)) (key : List Char) :
    (ms.any fun kv => kv.1 == key) = true ↔ key ∈ ms.map Prod.fst := by
  simp [List.any_eq_true, List.mem_map, beq_iff_eq]

/-- C4: on an `Object`, `Contains` reports exactly the presence of the
key among the member keys; on every other kind — and only there — it
fails with Type-Mismatch instead of silently returning false. -/
theorem contains_exact :
    (∀ (ms : List (List Char × Value)) (key : List Char),
        Contains (.obj ms) key = .ok true ↔ key ∈ ms.map Prod.fst) ∧
    (∀ (ms : List (List Char × Value)) (key : List Char),
        Contains (.obj ms) key = .ok false ↔ key ∉ ms.map Prod.fst) ∧
    (∀ (v : Value) (key : List Char),
        v.kind ≠ .object ↔ Contains v key = .error .typeMismatch) := by
  refine ⟨fun ms key => ?_, fun ms key => ?_, fun v key => ?_⟩
  · rw [← contains_any_iff]
    simp [Contains]
  · rw [← contains_any_iff]
    simp [Contains]
    constructor
    · intro h x hx
      exact h _ _ hx rfl
    · intro h a b hab hkey
      subst hkey
      exact h _ hab
  · cases v <;> simp [Contains, Value.kind]

/-! ## The large-integer precision claim -/

/-- C8: the 19-digit literal 1234567890123456789 lexes to exactly that
integer, but it is not representable as a binary64 float: rounding it to
the double-backed Number representation yields 1234567890123456768, so
dumping the stored Number cannot reproduce the original digits. -/
theorem large_integer_no_roundtrip :
    lexNumber "1234567890123456789".toList = some ((1234567890123456789 : ℚ), []) ∧
    roundToBinary64 1234567890123456789 = 1234567890123456768 ∧
    roundToBinary64 1234567890123456789 ≠ 1234567890123456789 ∧
    ¬ RepresentableB64 1234567890123456789 := by
  refine ⟨by decide, by decide, by decide, ?_⟩
  rintro ⟨m, e, hm, heq⟩
  match e with
  | 0 => simp at heq; omega
  | e + 1 =>
    have h2 : 2 ∣ 1234567890123456789 := by
      rw [heq]
      exact ⟨m * 2 ^ e, by ring⟩
    omega

/-! ## Concrete parse behavior -/

/-- C2: every malformed input on the spec's list makes `Parse` fail with
Malformed-Document and return no value: trailing comma in an array,
trailing comma in an object, an unquoted key, a missing colon, a bare
word as a value, a misspelled keyword, a double decimal point, and an
object or array with no closing delimiter. -/
theorem malformed_inputs_rejected :
    Parse "[1, 2, 3,]".toList = .error .malformedDocument ∧
    Parse "\x7b \"key1\": \"v1\", \"key2\": \"v2\", \x7d".toList = .error .malformedDocument ∧
    Parse "\x7b key: \"value\" \x7d".toList = .error .malformedDocument ∧
    Parse "\x7b \"key\" \"value\" \x7d".toList = .error .malformedDocument ∧
    Parse "\x7b \"key\": maybe \x7d".toList = .error .malformedDocument ∧
    Parse "nullxyz".toList = .error .malformedDocument ∧
    Parse "3.14.15".toList = .error .malformedDocument ∧
    Parse "\x7b \"key\": \"value\"".toList = .error .malformedDocument ∧
    Parse "[1, 2, 3".toList = .error .malformedDocument :=
  ⟨rfl, rfl, rfl, rfl, rfl, rfl, rfl, rfl, rfl⟩

/-- C5: parsing the escaped string literal yields the decoded payload in
which the escape sequences have become an actual newline, an actual tab,
a single backslash and a double quote (the second conjunct spells the
decoded payload out character by character). -/
theorem escaped_string_decoded :
    Parse "\x7b \"text\": \"line1\\nline2\\tTabbed\\\\Backslash\\\"Quote\" \x7d".toList
      = .ok (.obj [("text".toList,
          .str "line1\nline2\tTabbed\\Backslash\"Quote".toList)]) ∧
    "line1\nline2\tTabbed\\Backslash\"Quote".toList =
      "line1".toList ++ '\n' :: "line2".toList ++ '\t' :: "Tabbed".toList ++
        '\\' :: "Backslash".toList ++ '"' :: "Quote".toList :=
  ⟨rfl, rfl⟩

/-- C7: with the spec's chosen policy, empty string keys are valid
uniformly: both an empty key mapping to a number and an empty key
mapping to a string parse successfully, with no input-dependent second
mode.  (The reference test suite expects the second input to fail; the
spec documents that expectation as a defect.) -/
theorem empty_key_valid_uniformly :
    Parse "\x7b \"\": 123 \x7d".toList = .ok (.obj [([], .number 123)]) ∧
    Parse "\x7b \"\": \"value\" \x7d".toList = .ok (.obj [([], .str "value".toList)]) :=
  ⟨rfl, rfl⟩

/-! ## Logical equality -/

theorem value_sizeOf_pos (v : Value) : 0 < sizeOf v := by
  cases v <;> simp

theorem logEq_refl_aux : ∀ n : ℕ, ∀ v : Value, sizeOf v ≤ n → LogEq v v := by
  intro n
  induction n with
  | zero =>
    intro v h
    have := value_sizeOf_pos v
    omega
  | succ n ih =>
    intro v hv
    match v with
    | .null => exact .null
    | .bool b => exact .bool b
    | .number q => exact .number q
    | .str s => exact .str s
    | .arr es =>
      have hes : sizeOf es ≤ n := by
        simp at hv
        omega
      clear hv
      induction es with
      | nil => exact .arrNil
      | cons e es' ihes =>
        simp at hes
        exact .arrCons (ih e (by omega)) (ihes (by omega))
    | .obj ms =>
      have hms : sizeOf ms ≤ n := by
        simp at hv
        omega
      clear hv
      induction ms with
      | nil => exact .objNil
      | cons kv ms' ihms =>
        obtain ⟨k, w⟩ := kv
        simp at hms
        exact .objCons k (ih w (by omega)) (ihms (by omega))

/-- Logical equality is reflexive: every tree is logically equal to
itself. -/
theorem logEq_refl (v : Value) : LogEq v v := logEq_refl_aux (sizeOf v) v le_rfl

theorem toksElems_inj {as bs : List Value}
    (h : toks (.arr as) = toks (.arr bs)) : toksElems as = toksElems bs := by
  simp only [toks] at h
  injection h with h1 h2
  exact List.append_cancel_right h2

theorem toksMembers_inj {ms ns : List (List Char × Value)}
    (h : toks (.obj ms) = toks (.obj ns)) : toksMembers ms = toksMembers ns := by
  simp only [toks] at h
  injection h with h1 h2
  exact List.append_cancel_right h2

/-- Logically equal trees serialize to the same token sequence. -/
theorem logEq_toks {a b : Value} (h : LogEq a b) : toks a = toks b := by
  induction h with
  | null => rfl
  | bool b => rfl
  | number q => rfl
  | str s => rfl
  | arrNil => rfl
  | objNil => rfl
  | arrCons h1 h2 ih1 ih2 =>
    cases h2 with
    | arrNil => simp [toks, toksElems, ih1]
    | arrCons h2a h2b =>
      have hte := toksElems_inj ih2
      simp only [toks, toksElems, List.cons.injEq, true_and]
      rw [ih1, hte]
  | objCons k h1 h2 ih1 ih2 =>
    cases h2 with
    | objNil => simp [toks, toksMembers, ih1]
    | objCons k' h2a h2b =>
      have htm := toksMembers_inj ih2
      simp only [toks, toksMembers, List.cons.injEq, true_and]
      rw [ih1, htm]

/-- Logically equal trees dump to the same text. -/
theorem logEq_dump {a b : Value} (h : LogEq a b) : Dump a = Dump b := by
  unfold Dump
  rw [logEq_toks h]

/-- C9: `Parse` is deterministic — two successful parses of the same
text yield logically equal trees — and `Dump` is a pure function of the
tree: logically equal trees dump to the same text. -/
theorem parse_deterministic_dump_pure :
    (∀ (s : List Char) (V W : Value), Parse s = .ok V → Parse s = .ok W → LogEq V W) ∧
    (∀ a b : Value, LogEq a b → Dump a = Dump b) := by
  constructor
  · intro s V W h1 h2
    rw [h1] at h2
    injection h2 with h
    subst h
    exact logEq_refl V
  · intro a b h
    exact logEq_dump h

/-- Witness for C9 at concrete inputs: two parses of the text true are
logically equal, and dumping two logically equal nulls agrees. -/
theorem parse_deterministic_dump_pure_witness :
    LogEq (.bool true) (.bool true) ∧ Dump .null = Dump .null :=
  ⟨parse_deterministic_dump_pure.1 "true".toList (.bool true) (.bool true) rfl rfl,
   parse_deterministic_dump_pure.2 .null .null .null⟩

/-! ## Character class lemmas -/

theorem isWs_cases {c : Char} (h : isWs c = true) :
    c = ' ' ∨ c = '\t' ∨ c = '\r' ∨ c = '\n' := by
  simp [isWs] at h
  tauto

theorem sticky_of_ws {t : Token} {c : Char} (h : isWs c = true) :
    stickyAfter t c = false := by
  rcases isWs_cases h with rfl | rfl | rfl | rfl <;> cases t <;> rfl

theorem sticky_of_close {t : Token} {c : Char}
    (h : c = ',' ∨ c = ':' ∨ c = '{' ∨ c = '}' ∨ c = '[' ∨ c = ']' ∨ c = '"') :
    stickyAfter t c = false := by
  rcases h with rfl | rfl | rfl | rfl | rfl | rfl | rfl <;> cases t <;> rfl

/-! ## Span lemmas -/

theorem takeWhile_append_eq {p : Char → Bool} :
    ∀ (xs ys : List Char), (∀ x ∈ xs, p x = true) → (∀ c ∈ ys.head?, p c = false) →
      (xs ++ ys).takeWhile p = xs
  | [], [], _, _ => rfl
  | [], y :: ys, _, hy => by
    simp [List.takeWhile_cons, hy y rfl]
  | x :: xs, ys, hx, hy => by
    have h1 := hx x (by simp)
    have h2 := takeWhile_append_eq xs ys (fun a ha => hx a (by simp [ha])) hy
    simp [List.takeWhile_cons, h1, h2]

theorem dropWhile_append_eq {p : Char → Bool} :
    ∀ (xs ys : List Char), (∀ x ∈ xs, p x = true) → (∀ c ∈ ys.head?, p c = false) →
      (xs ++ ys).dropWhile p = ys
  | [], [], _, _ => rfl
  | [], y :: ys, _, hy => by
    simp [List.dropWhile_cons, hy y rfl]
  | x :: xs, ys, hx, hy => by
    have h1 := hx x (by simp)
    have h2 := dropWhile_append_eq xs ys (fun a ha => hx a (by simp [ha])) hy
    simp [List.dropWhile_cons, h1, h2]

theorem span_append {p : Char → Bool} (xs ys : List Char)
    (hx : ∀ x ∈ xs, p x = true) (hy : ∀ c ∈ ys.head?, p c = false) :
    (xs ++ ys).span p = (xs, ys) := by
  rw [List.span_eq_take_drop, takeWhile_append_eq xs ys hx hy,
    dropWhile_append_eq xs ys hx hy]

/-! ## Decimal length lemmas -/

theorem numLenAux_irrel : ∀ n f f' : ℕ, n ≤ f → n ≤ f' →
    numLenAux f n = numLenAux f' n := by
  intro n
  induction n using Nat.strong_induction_on with
  | _ n ih =>
    intro f f' hf hf'
    match n, f, f' with
    | 0, f, f' => simp [numLenAux]
    | n + 1, f + 1, f' + 1 =>
      simp only [numLenAux]
      have hlt : (n + 1) / 10 < n + 1 := Nat.div_lt_self (by omega) (by norm_num)
      exact congrArg (fun z => 1 + z) (ih ((n + 1) / 10) hlt f f' (by omega) (by omega))

theorem numLen_succ {n : ℕ} (h : 1 ≤ n) : numLen n = 1 + numLen (n / 10) := by
  unfold numLen
  match n, h with
  | n + 1, _ =>
    simp only [numLenAux]
    congr 1
    have hlt : (n + 1) / 10 < n + 1 := Nat.div_lt_self (by omega) (by norm_num)
    exact numLenAux_irrel ((n + 1) / 10) n ((n + 1) / 10) (by omega) le_rfl

theorem numLen_bounds : ∀ n : ℕ, 1 ≤ n →
    10 ^ (numLen n - 1) ≤ n ∧ n < 10 ^ numLen n := by
  intro n
  induction n using Nat.strong_induction_on with
  | _ n ih =>
    intro h1
    by_cases h10 : n < 10
    · have he : numLen n = 1 := by
        rw [numLen_succ h1, Nat.div_eq_of_lt h10]
        rfl
      rw [he]
      simpa using ⟨h1, h10⟩
    · push_neg at h10
      have hd : 1 ≤ n / 10 := (Nat.one_le_div_iff (by norm_num)).mpr h10
      have hlt : n / 10 < n := Nat.div_lt_self (by omega) (by norm_num)
      obtain ⟨hlo, hhi⟩ := ih (n / 10) hlt hd
      have hL1 : 1 ≤ numLen (n / 10) := by
        rw [numLen_succ hd]
        omega
      rw [numLen_succ h1]
      constructor
      · have h2 : 10 ^ (1 + numLen (n / 10) - 1) = 10 * 10 ^ (numLen (n / 10) - 1) := by
          rw [show 1 + numLen (n / 10) - 1 = (numLen (n / 10) - 1) + 1 by omega, pow_succ]
          ring
        rw [h2]
        calc 10 * 10 ^ (numLen (n / 10) - 1) ≤ 10 * (n / 10) := by
              exact Nat.mul_le_mul_left 10 hlo
          _ ≤ n := by
              have := Nat.div_add_mod n 10
              omega
      · have h2 : 10 ^ (1 + numLen (n / 10)) = 10 * 10 ^ numLen (n / 10) := by
          rw [add_comm, pow_succ]
          ring
        rw [h2]
        have hmod : n % 10 < 10 := Nat.mod_lt n (by norm_num)
        have := Nat.div_add_mod n 10
        omega

/-! ## Decimal digit rendering lemmas -/

theorem digitVal_digitChar {d : ℕ} (h : d < 10) : digitVal (digitChar d) = d := by
  interval_cases d <;> rfl

theorem digitChar_isDigit {d : ℕ} (h : d < 10) : (digitChar d).isDigit = true := by
  interval_cases d <;> rfl

theorem digitChar_ne_zero {d : ℕ} (h1 : 1 ≤ d) (h2 : d < 10) : digitChar d ≠ '0' := by
  interval_cases d <;> decide

theorem digitsPad_length (k : ℕ) : ∀ n, (digitsPad k n).length = k := by
  induction k with
  | zero => intro n; rfl
  | succ k ih => intro n; simp [digitsPad, ih]

theorem padChars_length (k n : ℕ) : (padChars k n).length = k := by
  simp [padChars, digitsPad_length]

theorem digitsPad_lt (k : ℕ) : ∀ n, ∀ d ∈ digitsPad k n, d < 10 := by
  induction k with
  | zero => intro n d hd; simp [digitsPad] at hd
  | succ k ih =>
    intro n d hd
    simp only [digitsPad, List.mem_cons] at hd
    rcases hd with rfl | hd
    · exact Nat.mod_lt _ (by norm_num)
    · exact ih (n / 10) d hd

theorem padChars_digits {k n : ℕ} : ∀ c ∈ padChars k n, c.isDigit = true := by
  intro c hc
  simp only [padChars, List.mem_map, List.mem_reverse] at hc
  obtain ⟨d, hd, rfl⟩ := hc
  exact digitChar_isDigit (digitsPad_lt k n d hd)

theorem padChars_succ (k n : ℕ) :
    padChars (k + 1) n = padChars k (n / 10) ++ [digitChar (n % 10)] := by
  simp [padChars, digitsPad]

theorem foldl_padChars (k : ℕ) : ∀ n a : ℕ,
    List.foldl (fun a c => 10 * a + digitVal c) a (padChars k n) =
      a * 10 ^ k + n % 10 ^ k := by
  induction k with
  | zero => intro n a; simp [padChars, digitsPad, Nat.mod_one]
  | succ k ih =>
    intro n a
    rw [padChars_succ, List.foldl_append]
    simp only [List.foldl_cons, List.foldl_nil]
    rw [ih (n / 10) a, digitVal_digitChar (Nat.mod_lt _ (by norm_num))]
    have h1 : n % 10 ^ (k + 1) = n % 10 + 10 * (n / 10 % 10 ^ k) := by
      rw [pow_succ, mul_comm (10 ^ k) 10]
      exact Nat.mod_mul
    have h2 : (10 : ℕ) ^ (k + 1) = 10 * 10 ^ k := by
      rw [pow_succ]
      ring
    rw [h1, h2]
    ring

theorem charsToNat_padChars {k n : ℕ} (h : n < 10 ^ k) :
    charsToNat (padChars k n) = n := by
  unfold charsToNat
  rw [foldl_padChars]
  simp [Nat.mod_eq_of_lt h]

theorem charsToNat_natToChars (n : ℕ) : charsToNat (natToChars n) = n := by
  by_cases h : n = 0
  · subst h; rfl
  · unfold natToChars
    rw [if_neg h, charsToNat_padChars (numLen_bounds n (by omega)).2]

theorem natToChars_digits (n : ℕ) : ∀ c ∈ natToChars n, c.isDigit = true := by
  intro c hc
  unfold natToChars at hc
  by_cases h : n = 0
  · rw [if_pos h] at hc
    simp at hc
    subst hc
    rfl
  · rw [if_neg h] at hc
    exact padChars_digits c hc

theorem natToChars_length (n : ℕ) :
    (natToChars n).length = if n = 0 then 1 else numLen n := by
  unfold natToChars
  by_cases h : n = 0
  · simp [h]
  · simp [h, padChars_length]

theorem numLen_lt_ten {n : ℕ} (h1 : 1 ≤ n) (h2 : n < 10) : numLen n = 1 := by
  rw [numLen_succ h1, Nat.div_eq_of_lt h2]
  rfl

theorem numLen_ge_ten {n : ℕ} (h : 10 ≤ n) : 2 ≤ numLen n := by
  rw [numLen_succ (by omega)]
  have hd : 1 ≤ n / 10 := (Nat.one_le_div_iff (by norm_num)).mpr h
  rw [numLen_succ hd]
  omega

theorem padChars_head {k n : ℕ} (hk : 0 < k) :
    (padChars k n).head? = some (digitChar (n / 10 ^ (k - 1) % 10)) := by
  induction k generalizing n with
  | zero => omega
  | succ k ih =>
    by_cases hk0 : k = 0
    · subst hk0
      simp [padChars, digitsPad]
    · rw [padChars_succ]
      rw [List.head?_append_of_ne_nil]
      · rw [ih (by omega)]
        have hexp : n / 10 / 10 ^ (k - 1) = n / 10 ^ k := by
          rw [Nat.div_div_eq_div_mul]
          congr 1
          conv_rhs => rw [show k = (k - 1) + 1 by omega]
          rw [pow_succ]
          ring
        simp [hexp]
      · intro hnil
        have := padChars_length k (n / 10)
        rw [hnil] at this
        simp at this
        omega

theorem natToChars_no_leading_zero (n : ℕ) :
    ¬(1 < (natToChars n).length ∧ (natToChars n).head? = some '0') := by
  rintro ⟨hlen, hhead⟩
  rw [natToChars_length] at hlen
  by_cases h0 : n = 0
  · simp [h0] at hlen
  · rw [if_neg h0] at hlen
    have h10 : 10 ≤ n := by
      by_contra hlt
      push_neg at hlt
      rw [numLen_lt_ten (by omega) hlt] at hlen
      omega
    obtain ⟨hlo, hhi⟩ := numLen_bounds n (by omega)
    unfold natToChars at hhead
    rw [if_neg h0, padChars_head (by have := numLen_ge_ten h10; omega)] at hhead
    have hd1 : 1 ≤ n / 10 ^ (numLen n - 1) := (Nat.one_le_div_iff (by positivity)).mpr hlo
    have hd9 : n / 10 ^ (numLen n - 1) < 10 := by
      rw [Nat.div_lt_iff_lt_mul (by positivity)]
      calc n < 10 ^ numLen n := hhi
        _ = 10 ^ (numLen n - 1) * 10 := by
            rw [← pow_succ]
            congr 1
            have := numLen_ge_ten h10
            omega
        _ = 10 * 10 ^ (numLen n - 1) := by ring
    rw [Nat.mod_eq_of_lt hd9] at hhead
    exact digitChar_ne_zero hd1 hd9 (by injection hhead)

/-! ## Number round trip -/

theorem natToChars_ne_nil (n : ℕ) : natToChars n ≠ [] := by
  intro h
  have hl := natToChars_length n
  rw [h] at hl
  by_cases h0 : n = 0
  · simp [h0] at hl
  · rw [if_neg h0] at hl
    have h1 : 1 ≤ numLen n := by
      rw [numLen_succ (by omega)]
      omega
    simp at hl
    omega

theorem digit_ne_minus {c : Char} (h : c.isDigit = true) : ¬(c = '-') := by
  intro hc
  subst hc
  simp at h

theorem decShift_dvd {q : ℚ} (h : ValidNumber q) : q.den ∣ 10 ^ decShift q := by
  unfold decShift
  cases hf : (List.range (q.den + 1)).find? (fun k => 10 ^ k % q.den == 0) with
  | none =>
    simp only [Option.getD_none]
    exact Nat.dvd_of_mod_eq_zero h
  | some k =>
    simp only [Option.getD_some]
    have hp := List.find?_some hf
    simp at hp
    exact Nat.dvd_of_mod_eq_zero hp

theorem lexFrac_of_ne_dot {cs : List Char} (h : cs.head? ≠ some '.') :
    lexFrac cs = some ([], cs) := by
  unfold lexFrac
  rw [if_neg h]

theorem lexFrac_dot {k F : ℕ} {rest : List Char} (hk : 0 < k)
    (hrest : ∀ c ∈ rest.head?, c.isDigit = false) :
    lexFrac ('.' :: (padChars k F ++ rest)) = some (padChars k F, rest) := by
  unfold lexFrac
  rw [if_pos (by simp)]
  simp only [List.tail_cons]
  rw [span_append _ _ (fun c hc => padChars_digits c hc) hrest]
  have hne : padChars k F ≠ [] := by
    intro h
    have hl := padChars_length k F
    rw [h] at hl
    simp at hl
    omega
  rw [if_neg hne]

theorem lexExp_of_ne {cs : List Char} (h1 : cs.head? ≠ some 'e')
    (h2 : cs.head? ≠ some 'E') : lexExp cs = some (0, cs) := by
  unfold lexExp
  rw [if_neg (by tauto)]

theorem lexIntPart_append {I : ℕ} {zs : List Char}
    (hzs : ∀ c ∈ zs.head?, c.isDigit = false) :
    lexIntPart (natToChars I ++ zs) = some (natToChars I, zs) := by
  unfold lexIntPart
  rw [span_append _ _ (fun c hc => natToChars_digits I c hc) hzs]
  simp only []
  rw [if_neg (natToChars_ne_nil I), if_neg (natToChars_no_leading_zero I)]

theorem lexNumber_core (neg : Prop) [Decidable neg] (I F k : ℕ) (rest : List Char)
    (hFlt : F < 10 ^ k)
    (hdig : ∀ c ∈ rest.head?, c.isDigit = false)
    (hdot : rest.head? ≠ some '.')
    (he : rest.head? ≠ some 'e') (hE : rest.head? ≠ some 'E') :
    lexNumber ((if neg then ['-'] else []) ++ natToChars I ++
        ((if k = 0 then [] else '.' :: padChars k F) ++ rest)) =
      some (Rat.divInt (if neg then -(I * 10 ^ k + F : ℤ) else (I * 10 ^ k + F : ℤ))
        (10 ^ k), rest) := by
  have hfrac_head : ∀ c ∈ ((if k = 0 then [] else '.' :: padChars k F) ++ rest).head?,
      c.isDigit = false := by
    by_cases hk : k = 0
    · simpa [hk] using hdig
    · simp [hk]
  have hfrac : lexFrac ((if k = 0 then [] else '.' :: padChars k F) ++ rest) =
      some ((if k = 0 then [] else padChars k F), rest) := by
    by_cases hk : k = 0
    · simp only [hk, if_pos rfl, List.nil_append]
      exact lexFrac_of_ne_dot hdot
    · simp only [if_neg hk, List.cons_append]
      exact lexFrac_dot (by omega) hdig
  have hexp : lexExp rest = some (0, rest) := lexExp_of_ne he hE
  have hfdslen : ((if k = 0 then [] else padChars k F) : List Char).length = k := by
    by_cases hk : k = 0
    · simp [hk]
    · simp [hk, padChars_length]
  have hfdsval : charsToNat (if k = 0 then [] else padChars k F) = F := by
    by_cases hk : k = 0
    · subst hk
      simp at hFlt
      simp [hFlt]
      rfl
    · simp [hk]
      exact charsToNat_padChars hFlt
  have hint := @lexIntPart_append I
    ((if k = 0 then [] else '.' :: padChars k F) ++ rest) hfrac_head
  by_cases hneg : neg
  case pos =>
    simp only [if_pos hneg, List.cons_append, List.nil_append]
    simp [lexNumber, hint, hfrac, hexp, charsToNat_natToChars, hfdslen, hfdsval]
  case neg =>
    simp only [if_neg hneg, List.nil_append]
    have hne : (natToChars I = []) = False := by simp [natToChars_ne_nil I]
    have hhd2 : ((natToChars I).head? = some '-') = False := by
      simp only [eq_iff_iff, iff_false]
      intro hcontra
      exact digit_ne_minus (natToChars_digits I '-' (List.mem_of_mem_head? hcontra)) rfl
    simp [lexNumber, hhd2, hne, hint, hfrac, hexp, charsToNat_natToChars, hfdslen, hfdsval]

theorem dumpNumber_eq (q : ℚ) :
    dumpNumber q = (if q.num < 0 then ['-'] else []) ++
      (natToChars (q.num.natAbs * 10 ^ decShift q / q.den / 10 ^ decShift q) ++
      (if decShift q = 0 then [] else
        '.' :: padChars (decShift q)
          (q.num.natAbs * 10 ^ decShift q / q.den % 10 ^ decShift q))) := by
  unfold dumpNumber
  simp [List.append_assoc]

theorem lexNumber_dumpNumber (q : ℚ) (rest : List Char) (hq : ValidNumber q)
    (hrest : ∀ c ∈ rest.head?, stickyAfter (.num q) c = false) :
    lexNumber (dumpNumber q ++ rest) = some (q, rest) := by
  have hdig : ∀ c ∈ rest.head?, c.isDigit = false := by
    intro c hc
    have h := hrest c hc
    simp [stickyAfter] at h
    tauto
  have hdot : rest.head? ≠ some '.' := by
    intro hc
    have h := hrest '.' hc
    simp [stickyAfter] at h
  have he : rest.head? ≠ some 'e' := by
    intro hc
    have h := hrest 'e' hc
    simp [stickyAfter] at h
  have hE : rest.head? ≠ some 'E' := by
    intro hc
    have h := hrest 'E' hc
    simp [stickyAfter] at h
  have hdvd : q.den ∣ 10 ^ decShift q := decShift_dvd hq
  have hdvd' : q.den ∣ q.num.natAbs * 10 ^ decShift q := Dvd.dvd.mul_left hdvd _
  have hFlt : q.num.natAbs * 10 ^ decShift q / q.den % 10 ^ decShift q < 10 ^ decShift q :=
    Nat.mod_lt _ (by positivity)
  have hsplit : dumpNumber q ++ rest =
      (if q.num < 0 then ['-'] else []) ++
        natToChars (q.num.natAbs * 10 ^ decShift q / q.den / 10 ^ decShift q) ++
        ((if decShift q = 0 then []
          else '.' :: padChars (decShift q)
            (q.num.natAbs * 10 ^ decShift q / q.den % 10 ^ decShift q)) ++ rest) := by
    rw [dumpNumber_eq]
    simp [List.append_assoc]
  rw [hsplit, lexNumber_core (q.num < 0) _ _ _ rest hFlt hdig hdot he hE]
  simp only [Option.some.injEq, Prod.mk.injEq, and_true]
  -- remaining: divInt (±(I * 10 ^ k + F)) (10 ^ k) = q
  have hIF : ((q.num.natAbs * 10 ^ decShift q / q.den / 10 ^ decShift q : ℕ) : ℤ) *
        10 ^ decShift q +
        ((q.num.natAbs * 10 ^ decShift q / q.den % 10 ^ decShift q : ℕ) : ℤ) =
      ((q.num.natAbs * 10 ^ decShift q / q.den : ℕ) : ℤ) := by
    have h0 : q.num.natAbs * 10 ^ decShift q / q.den / 10 ^ decShift q * 10 ^ decShift q +
        q.num.natAbs * 10 ^ decShift q / q.den % 10 ^ decShift q =
        q.num.natAbs * 10 ^ decShift q / q.den := by
      rw [mul_comm]
      exact Nat.div_add_mod _ _
    exact_mod_cast h0
  have hnd : ((q.num.natAbs * 10 ^ decShift q / q.den : ℕ) : ℤ) * (q.den : ℤ) =
      (q.num.natAbs : ℤ) * 10 ^ decShift q := by
    exact_mod_cast Nat.div_mul_cancel hdvd'
  have hden : ((q.den : ℤ)) ≠ 0 := by
    have := q.den_nz
    exact_mod_cast this
  have hpow : ((10 : ℤ) ^ decShift q) ≠ 0 := by positivity
  by_cases hneg : q.num < 0
  · rw [if_pos hneg]
    rw [show (-((q.num.natAbs * 10 ^ decShift q / q.den / 10 ^ decShift q : ℕ) * 10 ^ decShift q +
        (q.num.natAbs * 10 ^ decShift q / q.den % 10 ^ decShift q : ℕ) : ℤ)) =
        -((q.num.natAbs * 10 ^ decShift q / q.den : ℕ) : ℤ) from by rw [hIF]]
    conv_rhs => rw [← Rat.num_divInt_den q]
    rw [Rat.divInt_eq_divInt hpow hden]
    have hnum : q.num = -(q.num.natAbs : ℤ) := by omega
    rw [neg_mul, hnd, ← neg_mul]
    exact congrArg (fun z => z * ((10 : ℤ) ^ decShift q)) hnum.symm
  · rw [if_neg hneg]
    rw [show ((q.num.natAbs * 10 ^ decShift q / q.den / 10 ^ decShift q : ℕ) * 10 ^ decShift q +
        (q.num.natAbs * 10 ^ decShift q / q.den % 10 ^ decShift q : ℕ) : ℤ) =
        ((q.num.natAbs * 10 ^ decShift q / q.den : ℕ) : ℤ) from by rw [hIF]]
    conv_rhs => rw [← Rat.num_divInt_den q]
    rw [Rat.divInt_eq_divInt hpow hden]
    have hnum : (q.num.natAbs : ℤ) = q.num := by omega
    rw [hnd, hnum]

/-! ## Lexer round trip -/

theorem escapeString_cons (c : Char) (s : List Char) :
    escapeString (c :: s) = escapeChar c ++ escapeString s := by
  simp [escapeString]

theorem lexString_escape : ∀ (s rest : List Char),
    lexString (escapeString s ++ '"' :: rest) = some (s, rest)
  | [], rest => by
    show lexString ('"' :: rest) = some ([], rest)
    rw [lexString.eq_def]
    simp
  | c :: s, rest => by
    rw [escapeString_cons, List.append_assoc]
    have ih := lexString_escape s rest
    by_cases h1 : c = '"'
    · subst h1
      show lexString ('\\' :: '"' :: (escapeString s ++ '"' :: rest)) = some ('"' :: s, rest)
      rw [lexString.eq_def]
      simp [escChar, ih]
    · by_cases h2 : c = '\\'
      · subst h2
        show lexString ('\\' :: '\\' :: (escapeString s ++ '"' :: rest)) = some ('\\' :: s, rest)
        rw [lexString.eq_def]
        simp [escChar, ih]
      · by_cases h3 : c = '\n'
        · subst h3
          show lexString ('\\' :: 'n' :: (escapeString s ++ '"' :: rest)) = some ('\n' :: s, rest)
          rw [lexString.eq_def]
          simp [escChar, ih]
        · by_cases h4 : c = '\t'
          · subst h4
            show lexString ('\\' :: 't' :: (escapeString s ++ '"' :: rest)) = some ('\t' :: s, rest)
            rw [lexString.eq_def]
            simp [escChar, ih]
          · by_cases h5 : c = '\r'
            · subst h5
              show lexString ('\\' :: 'r' :: (escapeString s ++ '"' :: rest)) = some ('\r' :: s, rest)
              rw [lexString.eq_def]
              simp [escChar, ih]
            · by_cases h6 : c = Char.ofNat 8
              · subst h6
                show lexString ('\\' :: 'b' :: (escapeString s ++ '"' :: rest)) =
                  some (Char.ofNat 8 :: s, rest)
                rw [lexString.eq_def]
                simp [escChar, ih]
              · by_cases h7 : c = Char.ofNat 12
                · subst h7
                  show lexString ('\\' :: 'f' :: (escapeString s ++ '"' :: rest)) =
                    some (Char.ofNat 12 :: s, rest)
                  rw [lexString.eq_def]
                  simp [escChar, ih]
                · have hesc : escapeChar c = [c] := by
                    simp [escapeChar, h1, h2, h3, h4, h5, h6, h7]
                  rw [hesc]
                  show lexString (c :: (escapeString s ++ '"' :: rest)) = some (c :: s, rest)
                  rw [lexString.eq_def]
                  simp only [if_neg h1, if_neg h2, ih, Option.map_some']



theorem except_map_cons_ok {t : Token} {e : Except JsonError (List Token)} {ts : List Token}
    (h : (e.map (fun ts => t :: ts)) = .ok ts) :
    ∃ ts', e = .ok ts' ∧ ts = t :: ts' := by
  cases e with
  | error err => simp [Except.map] at h
  | ok ts' =>
    simp [Except.map] at h
    exact ⟨ts', rfl, h.symm⟩

theorem lexAux_mono : ∀ (f : ℕ) (cs : List Char) (ts : List Token),
    lexAux f cs = .ok ts → lexAux (f + 1) cs = .ok ts := by
  intro f
  induction f with
  | zero =>
    intro cs ts h
    cases cs with
    | nil =>
      simp only [lexAux] at h ⊢
      exact h
    | cons c cs' =>
      simp only [lexAux] at h
      exact Except.noConfusion h
  | succ f ih =>
    intro cs ts h
    cases cs with
    | nil =>
      simp only [lexAux] at h ⊢
      exact h
    | cons c cs' =>
      simp only [lexAux] at h ⊢
      cases hs : lexStep c cs' with
      | ws rest =>
        rw [hs] at h
        simp only at h ⊢
        exact ih _ _ h
      | tok t rest =>
        rw [hs] at h
        simp only at h ⊢
        obtain ⟨ts', hx, rfl⟩ := except_map_cons_ok h
        rw [ih _ _ hx]
        rfl
      | fail =>
        rw [hs] at h
        simp only at h
        exact Except.noConfusion h

theorem lexAux_mono_le {f f' : ℕ} (hle : f ≤ f') : ∀ (cs : List Char) (ts : List Token),
    lexAux f cs = .ok ts → lexAux f' cs = .ok ts := by
  induction hle with
  | refl => intro cs ts h; exact h
  | step h ihstep =>
    intro cs ts hcs
    exact lexAux_mono _ _ _ (ihstep cs ts hcs)

theorem lexAll_nil : lexAll [] = .ok [] := rfl

theorem lexAll_ws_cons {c : Char} {cs : List Char} (h : isWs c = true) :
    lexAll (c :: cs) = lexAll cs := by
  simp only [lexAll, List.length_cons, lexAux, lexStep, if_pos h]

theorem lexAll_ws (w : List Char) (cs : List Char) (hw : ∀ c ∈ w, isWs c = true) :
    lexAll (w ++ cs) = lexAll cs := by
  induction w with
  | nil => rfl
  | cons c w' ih =>
    rw [List.cons_append, lexAll_ws_cons (hw c (by simp)), ih (fun x hx => hw x (by simp [hx]))]


theorem dumpNumber_cons (q : ℚ) :
    ∃ c cs', dumpNumber q = c :: cs' ∧ (c = '-' ∨ c.isDigit = true) := by
  rw [dumpNumber_eq]
  by_cases hneg : q.num < 0
  · rw [if_pos hneg]
    exact ⟨'-', _, rfl, Or.inl rfl⟩
  · rw [if_neg hneg]
    rw [List.nil_append]
    cases hnc : natToChars (q.num.natAbs * 10 ^ decShift q / q.den / 10 ^ decShift q) with
    | nil => exact absurd hnc (natToChars_ne_nil _)
    | cons c cs' =>
      refine ⟨c, cs' ++ (if decShift q = 0 then [] else '.' :: padChars (decShift q)
        (q.num.natAbs * 10 ^ decShift q / q.den % 10 ^ decShift q)), ?_, Or.inr ?_⟩
      · rfl
      · exact natToChars_digits _ c (by rw [hnc]; exact List.mem_cons_self c cs')

theorem tokText_ne_nil (t : Token) : tokText t ≠ [] := by
  cases t with
  | num q =>
    obtain ⟨c, cs', h, _⟩ := dumpNumber_cons q
    simp [tokText, h]
  | str s => simp [tokText]
  | lbrace => simp [tokText]
  | rbrace => simp [tokText]
  | lbracket => simp [tokText]
  | rbracket => simp [tokText]
  | colon => simp [tokText]
  | comma => simp [tokText]
  | kwTrue => simp [tokText]
  | kwFalse => simp [tokText]
  | kwNull => simp [tokText]

theorem digit_not_special {c : Char} (h : c.isDigit = true) :
    isWs c = false ∧ ¬c = '{' ∧ ¬c = '}' ∧ ¬c = '[' ∧ ¬c = ']' ∧ ¬c = ':' ∧
      ¬c = ',' ∧ ¬c = '"' := by
  refine ⟨?_, ?_, ?_, ?_, ?_, ?_, ?_, ?_⟩
  · by_contra hw
    simp only [Bool.not_eq_false] at hw
    rcases isWs_cases hw with rfl | rfl | rfl | rfl <;> simp at h
  all_goals intro hc
  all_goals subst hc
  all_goals simp at h

theorem lexAll_cons_tok {c : Char} {cs rest : List Char} {t : Token} {ts : List Token}
    (hstep : lexStep c cs = .tok t rest)
    (hlen : rest.length ≤ cs.length)
    (hrest : lexAll rest = .ok ts) :
    lexAll (c :: cs) = .ok (t :: ts) := by
  show lexAux ((c :: cs).length + 1) (c :: cs) = .ok (t :: ts)
  simp only [List.length_cons, lexAux]
  rw [hstep]
  simp only
  rw [lexAux_mono_le (by omega : rest.length + 1 ≤ cs.length + 1) rest ts hrest]
  rfl

theorem lexAll_token (t : Token) {rest : List Char} {ts : List Token} (ht : TokOk t)
    (hs : ∀ c ∈ rest.head?, stickyAfter t c = false)
    (hrest : lexAll rest = .ok ts) :
    lexAll (tokText t ++ rest) = .ok (t :: ts) := by
  cases t with
  | lbrace => exact lexAll_cons_tok rfl le_rfl hrest
  | rbrace => exact lexAll_cons_tok rfl le_rfl hrest
  | lbracket => exact lexAll_cons_tok rfl le_rfl hrest
  | rbracket => exact lexAll_cons_tok rfl le_rfl hrest
  | colon => exact lexAll_cons_tok rfl le_rfl hrest
  | comma => exact lexAll_cons_tok rfl le_rfl hrest
  | kwTrue =>
    have hAl : ∀ c ∈ rest.head?, (fun x => x.isAlpha) c = false := fun c hc => hs c hc
    have hspan := @span_append (fun x => x.isAlpha) ['t', 'r', 'u', 'e'] rest (by decide) hAl
    simp only [List.cons_append, List.nil_append] at hspan
    have hstep : lexStep 't' ('r' :: 'u' :: 'e' :: rest) = .tok .kwTrue rest := by
      simp only [lexStep]
      rw [hspan]
      simp
      all_goals decide
    show lexAll ('t' :: 'r' :: 'u' :: 'e' :: rest) = .ok (.kwTrue :: ts)
    exact lexAll_cons_tok hstep (by simp only [List.length_cons]; omega) hrest
  | kwFalse =>
    have hAl : ∀ c ∈ rest.head?, (fun x => x.isAlpha) c = false := fun c hc => hs c hc
    have hspan := @span_append (fun x => x.isAlpha) ['f', 'a', 'l', 's', 'e'] rest (by decide) hAl
    simp only [List.cons_append, List.nil_append] at hspan
    have hstep : lexStep 'f' ('a' :: 'l' :: 's' :: 'e' :: rest) = .tok .kwFalse rest := by
      simp only [lexStep]
      rw [hspan]
      simp
      all_goals decide
    show lexAll ('f' :: 'a' :: 'l' :: 's' :: 'e' :: rest) = .ok (.kwFalse :: ts)
    exact lexAll_cons_tok hstep (by simp only [List.length_cons]; omega) hrest
  | kwNull =>
    have hAl : ∀ c ∈ rest.head?, (fun x => x.isAlpha) c = false := fun c hc => hs c hc
    have hspan := @span_append (fun x => x.isAlpha) ['n', 'u', 'l', 'l'] rest (by decide) hAl
    simp only [List.cons_append, List.nil_append] at hspan
    have hstep : lexStep 'n' ('u' :: 'l' :: 'l' :: rest) = .tok .kwNull rest := by
      simp only [lexStep]
      rw [hspan]
      simp
      all_goals decide
    show lexAll ('n' :: 'u' :: 'l' :: 'l' :: rest) = .ok (.kwNull :: ts)
    exact lexAll_cons_tok hstep (by simp only [List.length_cons]; omega) hrest
  | str s =>
    have hstep : lexStep '"' (escapeString s ++ '"' :: rest) = .tok (.str s) rest := by
      simp [lexStep, lexString_escape s rest]
      all_goals decide
    rw [show tokText (.str s) ++ rest = '"' :: (escapeString s ++ '"' :: rest) from by
      simp [tokText]]
    exact lexAll_cons_tok hstep
      (by simp only [List.length_append, List.length_cons]; omega) hrest
  | num q =>
    obtain ⟨c, cs', hdc, hcls⟩ := dumpNumber_cons q
    have hlex : lexNumber (c :: (cs' ++ rest)) = some (q, rest) := by
      rw [show c :: (cs' ++ rest) = dumpNumber q ++ rest by rw [hdc]; rfl]
      exact lexNumber_dumpNumber q rest ht hs
    have hstep : lexStep c (cs' ++ rest) = .tok (.num q) rest := by
      rcases hcls with rfl | hd
      · simp [lexStep, hlex]
        all_goals decide
      · obtain ⟨hw, p1, p2, p3, p4, p5, p6, p7⟩ := digit_not_special hd
        simp [lexStep, hw, p1, p2, p3, p4, p5, p6, p7, hd, hlex]
    have hlen : rest.length ≤ (cs' ++ rest).length := by
      rw [List.length_append]
      omega
    have := lexAll_cons_tok hstep hlen hrest
    rw [show tokText (.num q) ++ rest = c :: (cs' ++ rest) by
      simp only [tokText, hdc, List.cons_append]]
    exact this

theorem render_head_sticky (t : Token) (ts : List Token) (g : ℕ → List Char)
    (hg : ∀ i, ∀ c ∈ g i, isWs c = true) (hsep : Sep (t :: ts)) :
    ∀ c ∈ (render ts g).head?, stickyAfter t c = false := by
  intro c hc
  cases ts with
  | nil =>
    simp only [render] at hc
    exact sticky_of_ws (hg 0 c (List.mem_of_mem_head? hc))
  | cons t' ts' =>
    simp only [render] at hc
    cases hg0 : g 0 with
    | nil =>
      rw [hg0, List.nil_append, List.head?_append_of_ne_nil _ (tokText_ne_nil t')] at hc
      have hsepR : SepR t t' := (List.chain'_cons'.mp hsep).1 t' rfl
      have hhead : headChar t' = c := by
        unfold headChar
        cases ht' : tokText t' with
        | nil => exact absurd ht' (tokText_ne_nil t')
        | cons x xs =>
          rw [ht'] at hc
          simp at hc
          simp [hc]
      rw [← hhead]
      exact hsepR
    | cons w ws' =>
      rw [hg0] at hc
      simp at hc
      subst hc
      exact sticky_of_ws (hg 0 w (by simp [hg0]))

theorem lexAll_render : ∀ (ts : List Token) (g : ℕ → List Char),
    (∀ i, ∀ c ∈ g i, isWs c = true) → Sep ts → (∀ t ∈ ts, TokOk t) →
    lexAll (render ts g) = .ok ts := by
  intro ts
  induction ts with
  | nil =>
    intro g hg _ _
    rw [show render [] g = g 0 from by simp only [render]]
    rw [← List.append_nil (g 0), lexAll_ws _ _ (hg 0)]
    rfl
  | cons t ts ih =>
    intro g hg hsep htok
    rw [show render (t :: ts) g = g 0 ++ (tokText t ++ render ts (fun i => g (i + 1))) from by
      simp only [render, List.append_assoc]]
    rw [lexAll_ws _ _ (hg 0)]
    exact lexAll_token t (htok t (by simp))
      (render_head_sticky t ts (fun i => g (i + 1)) (fun i => hg (i + 1)) hsep)
      (ih (fun i => g (i + 1)) (fun i => hg (i + 1)) (List.Chain'.tail hsep)
        (fun t' ht' => htok t' (by simp [ht'])))

/-! ## Token separation of serialized trees -/

theorem sepR_right_close {x t : Token}
    (h : headChar t = ',' ∨ headChar t = ':' ∨ headChar t = '{' ∨ headChar t = '}' ∨
      headChar t = '[' ∨ headChar t = ']' ∨ headChar t = '"') : SepR x t := by
  unfold SepR
  rcases h with h | h | h | h | h | h | h <;> rw [h] <;>
    exact sticky_of_close (by tauto)

theorem toks_sep_aux : ∀ n : ℕ,
    (∀ v : Value, sizeOf v ≤ n → Sep (toks v)) ∧
    (∀ es : List Value, sizeOf es ≤ n → Sep (toksElems es ++ [Token.rbracket])) ∧
    (∀ ms : List (List Char × Value), sizeOf ms ≤ n →
      Sep (toksMembers ms ++ [Token.rbrace])) := by
  intro n
  induction n with
  | zero =>
    refine ⟨fun v hv => ?_, fun es hes => ?_, fun ms hms => ?_⟩
    · have := value_sizeOf_pos v
      omega
    · cases es <;> simp at hes
    · cases ms <;> simp at hms
  | succ n ih =>
    obtain ⟨ihA, ihB, ihC⟩ := ih
    refine ⟨?_, ?_, ?_⟩
    · intro v hv
      match v with
      | .null => simp [toks, Sep]
      | .bool true => simp [toks, Sep]
      | .bool false => simp [toks, Sep]
      | .number q => simp [toks, Sep]
      | .str s => simp [toks, Sep]
      | .arr es =>
        have hes : sizeOf es ≤ n := by
          simp at hv
          omega
        simp only [toks]
        exact List.chain'_cons'.mpr ⟨fun y _ => rfl, ihB es hes⟩
      | .obj ms =>
        have hms : sizeOf ms ≤ n := by
          simp at hv
          omega
        simp only [toks]
        exact List.chain'_cons'.mpr ⟨fun y _ => rfl, ihC ms hms⟩
    · intro es hes
      match es with
      | [] =>
        simp [toksElems, Sep]
      | [e] =>
        have he : sizeOf e ≤ n := by
          simp at hes
          omega
        simp only [toksElems]
        refine List.chain'_append.mpr ⟨ihA e he, by simp [Sep], ?_⟩
        intro x hx y hy
        simp at hy
        subst hy
        exact sepR_right_close (by right; right; right; right; right; left; rfl)
      | e :: e' :: es' =>
        have he : sizeOf e ≤ n := by
          simp at hes
          omega
        have hrest : sizeOf (e' :: es') ≤ n := by
          have := value_sizeOf_pos e
          simp at hes ⊢
          omega
        simp only [toksElems, List.append_assoc, List.cons_append]
        refine List.chain'_append.mpr ⟨ihA e he, ?_, ?_⟩
        · exact List.chain'_cons'.mpr ⟨fun y _ => rfl, ihB (e' :: es') hrest⟩
        · intro x hx y hy
          simp at hy
          subst hy
          exact sepR_right_close (by left; rfl)
    · intro ms hms
      match ms with
      | [] =>
        simp [toksMembers, Sep]
      | [(k, v)] =>
        have hv : sizeOf v ≤ n := by
          simp at hms
          omega
        simp only [toksMembers, List.cons_append]
        refine List.chain'_cons'.mpr ⟨fun y _ => rfl, ?_⟩
        refine List.chain'_cons'.mpr ⟨fun y _ => rfl, ?_⟩
        refine List.chain'_append.mpr ⟨ihA v hv, by simp [Sep], ?_⟩
        intro x hx y hy
        simp at hy
        subst hy
        exact sepR_right_close (by right; right; right; left; rfl)
      | (k, v) :: m' :: ms' =>
        have hv : sizeOf v ≤ n := by
          simp at hms
          omega
        have hrest : sizeOf (m' :: ms') ≤ n := by
          have := value_sizeOf_pos v
          simp at hms ⊢
          omega
        simp only [toksMembers, List.append_assoc, List.cons_append]
        refine List.chain'_cons'.mpr ⟨fun y _ => rfl, ?_⟩
        refine List.chain'_cons'.mpr ⟨fun y _ => rfl, ?_⟩
        refine List.chain'_append.mpr ⟨ihA v hv, ?_, ?_⟩
        · exact List.chain'_cons'.mpr ⟨fun y _ => rfl, ihC (m' :: ms') hrest⟩
        · intro x hx y hy
          simp at hy
          subst hy
          exact sepR_right_close (by left; rfl)

theorem toks_sep (v : Value) : Sep (toks v) := (toks_sep_aux (sizeOf v)).1 v le_rfl

theorem toks_head_cons (v : Value) :
    ∃ t ts', toks v = t :: ts' ∧ t ≠ Token.rbracket ∧ t ≠ Token.rbrace := by
  cases v with
  | null => exact ⟨.kwNull, [], by simp [toks], by simp, by simp⟩
  | bool b =>
    cases b with
    | true => exact ⟨.kwTrue, [], by simp [toks], by simp, by simp⟩
    | false => exact ⟨.kwFalse, [], by simp [toks], by simp, by simp⟩
  | number q => exact ⟨.num q, [], by simp [toks], by simp, by simp⟩
  | str s => exact ⟨.str s, [], by simp [toks], by simp, by simp⟩
  | arr es => exact ⟨.lbracket, toksElems es ++ [.rbracket], by simp [toks], by simp, by simp⟩
  | obj ms => exact ⟨.lbrace, toksMembers ms ++ [.rbrace], by simp [toks], by simp, by simp⟩

theorem toks_ne_nil (v : Value) : toks v ≠ [] := by
  obtain ⟨t, ts', ht, _, _⟩ := toks_head_cons v
  simp [ht]

theorem toks_length_pos (v : Value) : 0 < (toks v).length := by
  obtain ⟨t, ts', ht, _, _⟩ := toks_head_cons v
  simp [ht]

theorem toksElems_cons_head (e : Value) (es : List Value) (l : List Token) :
    (toksElems (e :: es) ++ l).head? = (toks e).head? := by
  cases es with
  | nil =>
    simp only [toksElems]
    exact List.head?_append_of_ne_nil _ (toks_ne_nil e)
  | cons e' es' =>
    simp only [toksElems, List.cons_append, List.append_assoc]
    exact List.head?_append_of_ne_nil _ (toks_ne_nil e)

theorem toksMembers_cons_head (k : List Char) (v : Value)
    (ms : List (List Char × Value)) (l : List Token) :
    (toksMembers ((k, v) :: ms) ++ l).head? = some (Token.str k) := by
  cases ms with
  | nil => simp [toksMembers]
  | cons m' ms' => simp [toksMembers]

theorem parse_complete : ∀ f : ℕ,
    (∀ (V : Value) (rest : List Token), (toks V).length < f →
      (parseF f).1 (toks V ++ rest) = .ok (V, rest)) ∧
    (∀ (es : List Value) (rest : List Token), es ≠ [] → (toksElems es).length + 1 < f →
      (parseF f).2.1 (toksElems es ++ .rbracket :: rest) = .ok (es, rest)) ∧
    (∀ (ms : List (List Char × Value)) (rest : List Token), ms ≠ [] →
      (toksMembers ms).length + 1 < f →
      (parseF f).2.2 (toksMembers ms ++ .rbrace :: rest) = .ok (ms, rest)) := by
  intro f
  induction f with
  | zero =>
    exact ⟨fun V rest h => absurd h (by omega), fun es rest _ h => absurd h (by omega),
      fun ms rest _ h => absurd h (by omega)⟩
  | succ f ih =>
    obtain ⟨ihP, ihQ, ihR⟩ := ih
    refine ⟨?_, ?_, ?_⟩
    · intro V rest hlen
      match V with
      | .null => simp [parseF, toks]
      | .bool true => simp [parseF, toks]
      | .bool false => simp [parseF, toks]
      | .number q => simp [parseF, toks]
      | .str s => simp [parseF, toks]
      | .arr [] => simp [parseF, toks, toksElems]
      | .arr (e :: es) =>
        have hb : (toksElems (e :: es)).length + 1 < f := by
          simp [toks, List.length_append] at hlen
          omega
        have hhead : ¬((toksElems (e :: es) ++ Token.rbracket :: rest).head? =
            some Token.rbracket) := by
          rw [toksElems_cons_head]
          obtain ⟨t, ts', ht, hne1, _⟩ := toks_head_cons e
          rw [ht]
          simp [hne1]
        rw [show toks (.arr (e :: es)) ++ rest =
            Token.lbracket :: (toksElems (e :: es) ++ Token.rbracket :: rest) from by
          simp [toks]]
        simp only [parseF]
        rw [if_neg hhead]
        rw [ihQ (e :: es) rest (by simp) hb]
        rfl
      | .obj [] => simp [parseF, toks, toksMembers]
      | .obj ((k, v) :: ms) =>
        have hb : (toksMembers ((k, v) :: ms)).length + 1 < f := by
          simp [toks, List.length_append] at hlen
          omega
        have hhead : ¬((toksMembers ((k, v) :: ms) ++ Token.rbrace :: rest).head? =
            some Token.rbrace) := by
          rw [toksMembers_cons_head]
          simp
        rw [show toks (.obj ((k, v) :: ms)) ++ rest =
            Token.lbrace :: (toksMembers ((k, v) :: ms) ++ Token.rbrace :: rest) from by
          simp [toks]]
        simp only [parseF]
        rw [if_neg hhead]
        rw [ihR ((k, v) :: ms) rest (by simp) hb]
        rfl
    · intro es rest hne hlen
      match es with
      | [e] =>
        have h1 : (toks e).length < f := by
          simp only [toksElems] at hlen
          omega
        rw [show toksElems [e] ++ Token.rbracket :: rest =
            toks e ++ Token.rbracket :: rest from by simp [toksElems]]
        simp only [parseF]
        rw [ihP e (Token.rbracket :: rest) h1]
      | e :: e' :: es' =>
        have hlen' := hlen
        simp only [toksElems, List.length_append, List.length_cons] at hlen'
        have h1 : (toks e).length < f := by omega
        have h2 : (toksElems (e' :: es')).length + 1 < f := by
          have := toks_length_pos e
          omega
        rw [show toksElems (e :: e' :: es') ++ Token.rbracket :: rest =
            toks e ++ (Token.comma :: (toksElems (e' :: es') ++ Token.rbracket :: rest)) from by
          simp [toksElems]]
        simp only [parseF]
        rw [ihP e _ h1]
        rw [show ((Except.ok ((e : Value), Token.comma ::
            (toksElems (e' :: es') ++ Token.rbracket :: rest))) :
            Except JsonError (Value × List Token)) = .ok (e, Token.comma ::
            (toksElems (e' :: es') ++ Token.rbracket :: rest)) from rfl]
        simp only
        rw [ihQ (e' :: es') rest (by simp) h2]
        rfl
    · intro ms rest hne hlen
      match ms with
      | [(k, v)] =>
        have h1 : (toks v).length < f := by
          simp only [toksMembers, List.length_cons] at hlen
          omega
        rw [show toksMembers [(k, v)] ++ Token.rbrace :: rest =
            Token.str k :: Token.colon :: (toks v ++ Token.rbrace :: rest) from by
          simp [toksMembers]]
        simp only [parseF]
        rw [ihP v (Token.rbrace :: rest) h1]
      | (k, v) :: m' :: ms' =>
        have hlen' := hlen
        simp only [toksMembers, List.length_append, List.length_cons] at hlen'
        have h1 : (toks v).length < f := by omega
        have h2 : (toksMembers (m' :: ms')).length + 1 < f := by
          have := toks_length_pos v
          omega
        rw [show toksMembers ((k, v) :: m' :: ms') ++ Token.rbrace :: rest =
            Token.str k :: Token.colon ::
              (toks v ++ (Token.comma ::
                (toksMembers (m' :: ms') ++ Token.rbrace :: rest))) from by
          simp [toksMembers]]
        simp only [parseF]
        rw [ihP v _ h1]
        simp only
        rw [ihR (m' :: ms') rest (by simp) h2]
        rfl



instance : DecidableRel SepR := fun a b =>
  inferInstanceAs (Decidable (stickyAfter a (headChar b) = false))

instance : ∀ ts, Decidable (Sep ts) := fun ts =>
  inferInstanceAs (Decidable (List.Chain' SepR ts))

theorem parseTokens_toks (V : Value) : parseTokens (toks V) = .ok V := by
  have h := (parse_complete ((toks V).length + 1)).1 V [] (by omega)
  rw [List.append_nil] at h
  simp [parseTokens, h]

theorem dump_parse (V : Value) (h : Valid V) : Parse (Dump V) = .ok V := by
  have hlex : lexAll (render (toks V) (fun _ => [])) = .ok (toks V) :=
    lexAll_render (toks V) (fun _ => [])
      (fun i c hc => absurd hc (List.not_mem_nil c)) (toks_sep V) h
  show Parse (render (toks V) (fun _ => [])) = .ok V
  simp only [Parse]
  rw [hlex]
  exact parseTokens_toks V

/-- C1: for every valid `Value` tree, parsing the text produced by `Dump`
succeeds and yields a tree logically equal to the original — same kinds,
same scalar values, and the same ordered children. -/
theorem roundtrip_logically_equal (V : Value) (h : Valid V) :
    ∃ W, Parse (Dump V) = .ok W ∧ LogEq W V :=
  ⟨V, dump_parse V h, logEq_refl V⟩

theorem roundtrip_logically_equal_witness :
    Valid (Value.obj [(['k'], Value.arr [Value.number 1, Value.null])]) ∧
    ∃ W, Parse (Dump (Value.obj [(['k'], Value.arr [Value.number 1, Value.null])])) =
        .ok W ∧ LogEq W (Value.obj [(['k'], Value.arr [Value.number 1, Value.null])]) := by
  have hv : Valid (Value.obj [(['k'], Value.arr [Value.number 1, Value.null])]) := by
    intro t ht
    simp [toks, toksMembers, toksElems] at ht
    rcases ht with rfl | rfl | rfl | rfl | rfl | rfl | rfl | rfl | rfl <;> decide
  exact ⟨hv, roundtrip_logically_equal _ hv⟩

/-- C6: whitespace is insignificant — for any token sequence and any two
assignments of whitespace gaps between the tokens (and around the whole
document), the two rendered texts parse identically, and any two
successful parses are logically equal trees. -/
theorem whitespace_insignificant (ts : List Token) (g g' : ℕ → List Char)
    (hg : ∀ i, ∀ c ∈ g i, isWs c = true) (hg' : ∀ i, ∀ c ∈ g' i, isWs c = true)
    (hsep : Sep ts) (htok : ∀ t ∈ ts, TokOk t) :
    Parse (render ts g) = Parse (render ts g') ∧
    ∀ W W', Parse (render ts g) = .ok W → Parse (render ts g') = .ok W' → LogEq W W' := by
  have h1 := lexAll_render ts g hg hsep htok
  have h2 := lexAll_render ts g' hg' hsep htok
  have heq : Parse (render ts g) = Parse (render ts g') := by
    simp only [Parse]
    rw [h1, h2]
  refine ⟨heq, fun W W' hW hW' => ?_⟩
  rw [heq, hW'] at hW
  injection hW with h
  subst h
  exact logEq_refl _

theorem whitespace_insignificant_witness :
    Parse ("\x7b      \"key\"  :  \"value\"  \x7d".toList) =
      Parse ("\x7b\"key\":\"value\"\x7d".toList) := by
  have h := (whitespace_insignificant
      [Token.lbrace, Token.str ['k','e','y'], Token.colon,
        Token.str ['v','a','l','u','e'], Token.rbrace]
      (fun i => [([] : List Char), [' ',' ',' ',' ',' ',' '], [' ',' '], [' ',' '],
        [' ',' ']].getD i [])
      (fun _ => [])
      (by
        intro i c hc
        simp only at hc
        match i with
        | 0 => simp [List.getD] at hc
        | 1 => simp [List.getD] at hc; simp [hc, isWs]
        | 2 => simp [List.getD] at hc; simp [hc, isWs]
        | 3 => simp [List.getD] at hc; simp [hc, isWs]
        | 4 => simp [List.getD] at hc; simp [hc, isWs]
        | n + 5 => simp [List.getD] at hc)
      (fun _ c hc => absurd hc (List.not_mem_nil c))
      (by simp [Sep, List.chain'_cons, SepR, stickyAfter]) (by decide)).1
  have e1 : render [Token.lbrace, Token.str ['k','e','y'], Token.colon,
      Token.str ['v','a','l','u','e'], Token.rbrace]
      (fun i => [([] : List Char), [' ',' ',' ',' ',' ',' '], [' ',' '], [' ',' '],
        [' ',' ']].getD i []) = "\x7b      \"key\"  :  \"value\"  \x7d".toList := by rfl
  have e2 : render [Token.lbrace, Token.str ['k','e','y'], Token.colon,
      Token.str ['v','a','l','u','e'], Token.rbrace]
      (fun _ => ([] : List Char)) = "\x7b\"key\":\"value\"\x7d".toList := by rfl
  rw [e1, e2] at h
  exact h

theorem escapeChar_id (c : Char) (h : 128 ≤ c.toNat) : escapeChar c = [c] := by
  unfold escapeChar
  split_ifs with h1 h2 h3 h4 h5 h6 h7
  all_goals first
    | rfl
    | (subst_vars; exact absurd h (by decide))

theorem escapeString_id (s : List Char) (h : ∀ c ∈ s, 128 ≤ c.toNat) :
    escapeString s = s := by
  induction s with
  | nil => rfl
  | cons c cs ih =>
    rw [escapeString_cons, escapeChar_id c (h c (List.mem_cons_self c cs)),
      ih (fun x hx => h x (List.mem_cons_of_mem c hx))]
    rfl

/-- C10: non-ASCII string content with no escape sequences — any content
whose characters all lie beyond the ASCII range — is preserved unchanged
through Parse followed by Dump: the decoded String payload carries the
original characters verbatim, and re-serializing the value reproduces the
original literal text exactly. Modelled at the character level, which
fixes the UTF-8 code units. -/
theorem unicode_content_preserved (s : List Char) (h : ∀ c ∈ s, 128 ≤ c.toNat) :
    Parse ('"' :: s ++ ['"']) = .ok (.str s) ∧
    Dump (.str s) = '"' :: s ++ ['"'] := by
  have hd : Dump (.str s) = '"' :: s ++ ['"'] := by
    simp [Dump, toks, render, tokText, escapeString_id s h]
  refine ⟨?_, hd⟩
  have hlex : lexAll (tokText (.str s) ++ []) = .ok [Token.str s] :=
    lexAll_token (.str s) trivial (fun c hc => rfl) lexAll_nil
  rw [List.append_nil] at hlex
  have htext : tokText (.str s) = '"' :: s ++ ['"'] := by
    simp [tokText, escapeString_id s h]
  rw [htext] at hlex
  simp only [Parse]
  rw [hlex]
  simp [parseTokens, parseF]

theorem unicode_content_preserved_witness :
    (∀ c ∈ "こんにちは".toList, 128 ≤ c.toNat) ∧
    Parse ('"' :: "こんにちは".toList ++ ['"']) = .ok (.str "こんにちは".toList) ∧
    Dump (.str "こんにちは".toList) = '"' :: "こんにちは".toList ++ ['"'] := by
  have h : ∀ c ∈ "こんにちは".toList, 128 ≤ c.toNat := by decide
  exact ⟨h, unicode_content_preserved _ h⟩

end UzleoJson

